import Mathlib

/-!
Shallow embedding of the MageFlag quantization/encoding core (src/main.rs):
the palette sampler `sample_palette` / `average_patch`, the perceptual
distance `lab_distance`, and the encoder `encode_uv_csv`.

Modelling conventions:
* 8-bit channels are natural numbers; `as u8` casts are `% 256`,
  `as u32` casts of `usize` indices are `% 2^32`.
* the encoder's `f32` coordinate arithmetic is modelled exactly over `ℚ`
  (its finitely many values are all far from rounding and tie boundaries);
  the sampler's cell-center arithmetic, whose `f32` roundings are
  observable (first at image width 31), is modelled with an explicit
  binary32 round-to-nearest-even function `fl` over `ℚ`;
  the CIELAB conversion of the `palette` crate is modelled over `ℝ`.
* Rust panics (`unwrap` on `None`) are modelled as `Option.none`.
-/

/-- Color models the Rust `[u8; 3]` RGB triple (channels 0..=255). -/
structure Color where
  r : ℕ
  g : ℕ
  b : ℕ
deriving DecidableEq, Repr, Inhabited

/-- Image models a decoded raster image: dimensions plus a pixel accessor.
The accessor stands for `img.get_pixel(x, y)` with the alpha channel already
dropped (the Rust code reads only channels 0, 1, 2). -/
structure Image where
  width : ℕ
  height : ℕ
  pix : ℕ → ℕ → Color

/-- IMAGE_WIDTH is the constant `IMAGE_WIDTH: u32 = 100` of the source. -/
def IMAGE_WIDTH : ℕ := 100

/-- IMAGE_HEIGHT is the constant `IMAGE_HEIGHT: u32 = 66` of the source. -/
def IMAGE_HEIGHT : ℕ := 66

/-- PALETTE_COLS is the constant `PALETTE_COLS: u32 = 7` of the source. -/
def PALETTE_COLS : ℕ := 7

/-- PALETTE_ROWS is the constant `PALETTE_ROWS: u32 = 6` of the source. -/
def PALETTE_ROWS : ℕ := 6

/-- gammaExpand models the sRGB channel linearization performed inside the
`palette` crate's `Srgb → Lab` conversion (an external dependency of
`lab_distance`), idealized over `ℝ`. -/
noncomputable def gammaExpand (v : ℝ) : ℝ :=
  if v ≤ 0.04045 then v / 12.92 else ((v + 0.055) / 1.055) ^ (2.4 : ℝ)

/-- labF models the CIELAB companding function used in the XYZ → Lab step of
the `palette` crate's conversion, idealized over `ℝ`. -/
noncomputable def labF (t : ℝ) : ℝ :=
  if t > 216 / 24389 then t ^ ((1 : ℝ) / 3) else (24389 / 27 * t + 16) / 116

/-- toLab models `Lab::from_color(Srgb::new(r, g, b).into_format())` of the
source (lines 224-225): an 8-bit sRGB color to CIELAB (L, a, b) under the
D65 white point, idealized over `ℝ`. -/
noncomputable def toLab (c : Color) : ℝ × ℝ × ℝ :=
  let r := gammaExpand ((c.r : ℝ) / 255)
  let g := gammaExpand ((c.g : ℝ) / 255)
  let b := gammaExpand ((c.b : ℝ) / 255)
  let x := 0.4124564 * r + 0.3575761 * g + 0.1804375 * b
  let y := 0.2126729 * r + 0.7151522 * g + 0.0721750 * b
  let z := 0.0193339 * r + 0.1191920 * g + 0.9503041 * b
  let fx := labF (x / 0.95047)
  let fy := labF y
  let fz := labF (z / 1.08883)
  (116 * fy - 16, 500 * (fx - fy), 200 * (fy - fz))

/-- lab_distance embeds `fn lab_distance(a: [u8; 3], b: [u8; 3]) -> f32`
(source lines 223-232): Euclidean distance between the CIELAB images of the
two colors, idealized over `ℝ`. -/
noncomputable def lab_distance (a b : Color) : ℝ :=
  let la := toLab a
  let lb := toLab b
  let dl := la.1 - lb.1
  let da := la.2.1 - lb.2.1
  let db := la.2.2 - lb.2.2
  Real.sqrt (dl * dl + da * da + db * db)

/-- enumerateFrom models Rust's `Iterator::enumerate` starting at index `n`:
it pairs each element of the list with its position. -/
def enumerateFrom {α : Type} (n : ℕ) : List α → List (ℕ × α)
  | [] => []
  | a :: l => (n, a) :: enumerateFrom (n + 1) l

/-- enumerate models `palette.iter().enumerate()` of the source (line 204). -/
def enumerate {α : Type} (l : List α) : List (ℕ × α) := enumerateFrom 0 l

/-- minStep is the reduction step of Rust's `Iterator::min_by` on the
comparator `|a, b| a.1.partial_cmp(&b.1).unwrap()` (source line 206): the
earlier element is kept unless the later one is strictly smaller in its
second (distance) component, so the first minimum wins. -/
def minStep {β : Type} [LinearOrder β] (acc x : ℕ × β) : ℕ × β :=
  if x.2 < acc.2 then x else acc

/-- rustMinBy models `Iterator::min_by` with that comparator: `none` on an
empty iterator (the subsequent `unwrap` panics), otherwise the fold of
`minStep` over the rest of the list starting from its head. -/
def rustMinBy {β : Type} [LinearOrder β] : List (ℕ × β) → Option (ℕ × β)
  | [] => none
  | a :: l => some (l.foldl minStep a)

/-- nearestIdx embeds the nearest-palette lookup of `encode_uv_csv` (source
lines 202-207): enumerate the palette, map each entry to its Lab distance
from the pixel color, take `min_by` on the distance, and keep the index. -/
noncomputable def nearestIdx (px : Color) (pal : List Color) : Option ℕ :=
  (rustMinBy ((enumerate pal).map fun ic => (ic.1, lab_distance px ic.2))).map Prod.fst

/-- U32 is the modulus of Rust `u32` arithmetic. -/
def U32 : ℕ := 2 ^ 32

/-- colOfIdx embeds `let col = idx as u32 % PALETTE_COLS` (source line 211);
the `usize → u32` cast is `% 2^32`. -/
def colOfIdx (idx : ℕ) : ℕ := idx % U32 % PALETTE_COLS

/-- rawRowOfIdx embeds `let raw_row = idx as u32 / PALETTE_COLS`
(source line 209). -/
def rawRowOfIdx (idx : ℕ) : ℕ := idx % U32 / PALETTE_COLS

/-- rowOfIdx embeds `let row = PALETTE_ROWS - 1 - raw_row` (source line 210)
with wrapping `u32` subtraction; for the palettes the program builds
(`raw_row ≤ 5`) no wrap occurs and the value is `5 - raw_row`. -/
def rowOfIdx (idx : ℕ) : ℕ := (PALETTE_ROWS - 1 + U32 - rawRowOfIdx idx) % U32

/-- uOfIdx embeds `let u = (col as f32 + 0.5) / PALETTE_COLS as f32`
(source line 213), exactly over `ℚ`. -/
def uOfIdx (idx : ℕ) : ℚ := ((colOfIdx idx : ℚ) + 1 / 2) / (PALETTE_COLS : ℚ)

/-- vOfIdx embeds `let v = (row as f32 + 0.5) / PALETTE_ROWS as f32`
(source line 214), exactly over `ℚ`. -/
def vOfIdx (idx : ℕ) : ℚ := ((rowOfIdx idx : ℚ) + 1 / 2) / (PALETTE_ROWS : ℚ)

/-- digitChar is the decimal digit character for `d < 10`. -/
def digitChar (d : ℕ) : Char := Char.ofNat (48 + d)

/-- natDigs is the decimal digit string of a natural number, most significant
digit first, as Rust's integer Display prints it. -/
def natDigs (n : ℕ) : List Char :=
  if _ : n < 10 then [digitChar n]
  else natDigs (n / 10) ++ [digitChar (n % 10)]
decreasing_by exact Nat.div_lt_self (by omega) (by omega)

/-- fmt2 models Rust's fixed two-decimal float formatting `{:.2}` applied to
the nonnegative coordinate values of the encoder: the value is rounded to
the nearest hundredth (the `f32` inputs are never at a tie) and printed as
integer part, a dot, and exactly two decimal digits. -/
def fmt2 (q : ℚ) : String :=
  let n := (round (q * 100)).toNat
  String.mk (natDigs (n / 100) ++ '.' :: [digitChar (n % 100 / 10), digitChar (n % 100 % 10)])

/-- fmtQ is the numeric value denoted by the two-decimal formatting of `q`
(the value a consumer reads back from the token text). -/
def fmtQ (q : ℚ) : ℚ := ((round (q * 100) : ℤ) : ℚ) / 100

/-- tokenOfIdx embeds `format!("{u:.2}:{v:.2}")` (source line 216) for the
coordinates derived from palette index `idx`. -/
def tokenOfIdx (idx : ℕ) : String := fmt2 (uOfIdx idx) ++ ":" ++ fmt2 (vOfIdx idx)

/-- pixelToken is the token `encode_uv_csv` pushes for output pixel (x, y):
the nearest-palette index rendered as a `"u:v"` string, or `none` when the
`unwrap` on an empty palette panics (source lines 199-216). -/
noncomputable def pixelToken (img : Image) (pal : List Color) (x y : ℕ) : Option String :=
  (nearestIdx (img.pix x y) pal).map tokenOfIdx

/-- encodeTokens is the token sequence `encode_uv_csv` accumulates in
`result`: outer loop `x` in `0..IMAGE_WIDTH`, inner loop `y` in
`(0..IMAGE_HEIGHT).rev()` (source lines 197-218). -/
noncomputable def encodeTokens (img : Image) (pal : List Color) : List (Option String) :=
  (List.range IMAGE_WIDTH).flatMap fun x =>
    (List.range IMAGE_HEIGHT).reverse.map fun y => pixelToken img pal x y

/-- optList sequences the per-pixel tokens: the whole encoding is `none` as
soon as one token is `none` (a Rust panic aborts the call). -/
def optList {α : Type} : List (Option α) → Option (List α)
  | [] => some []
  | none :: _ => none
  | some a :: l => (optList l).map fun ts => a :: ts

/-- encode_uv_csv embeds `fn encode_uv_csv(img, palette) -> String` (source
lines 194-221): the token sequence joined with single commas; `none` models
a panic on the selection path. -/
noncomputable def encode_uv_csv (img : Image) (pal : List Color) : Option String :=
  (optList (encodeTokens img pal)).map (String.intercalate ",")

/-- clampI models Rust's `i32::clamp` as used with bounds `0 ≤ hi`. -/
def clampI (v lo hi : ℤ) : ℤ := max lo (min v hi)

/-- patchOffsets is the 3×3 offset grid of `average_patch`: `dx` in the
outer loop, `dy` in the inner loop (source lines 179-189). -/
def patchOffsets : List (ℤ × ℤ) :=
  [(-1, -1), (-1, 0), (-1, 1), (0, -1), (0, 0), (0, 1), (1, -1), (1, 0), (1, 1)]

/-- patchPixels is the list of the nine samples `average_patch` reads:
each coordinate `cx + dx`, `cy + dy` is clamped to the image bounds
(`.clamp(0, width - 1)` on `i32`, source lines 181-182). -/
def patchPixels (img : Image) (cx cy : ℕ) : List Color :=
  patchOffsets.map fun d =>
    img.pix ((clampI ((cx : ℤ) + d.1) 0 ((img.width : ℤ) - 1)).toNat)
            ((clampI ((cy : ℤ) + d.2) 0 ((img.height : ℤ) - 1)).toNat)

/-- average_patch embeds `fn average_patch(img, cx, cy) -> [u8; 3]` (source
lines 173-192): per-channel sum of the nine clamped samples, divided by the
sample count 9 (truncating), cast back to `u8` (`% 256`). -/
def average_patch (img : Image) (cx cy : ℕ) : Color :=
  { r := ((patchPixels img cx cy).map Color.r).sum / 9 % 256
    g := ((patchPixels img cx cy).map Color.g).sum / 9 % 256
    b := ((patchPixels img cx cy).map Color.b).sum / 9 % 256 }

/-- rne is round-to-nearest-integer with ties to even, the IEEE 754 default
rounding used by every `f32` operation of the source. -/
def rne (q : ℚ) : ℤ :=
  if q - ⌊q⌋ < 1 / 2 then ⌊q⌋
  else if 1 / 2 < q - ⌊q⌋ then ⌊q⌋ + 1
  else if ⌊q⌋ % 2 = 0 then ⌊q⌋ else ⌊q⌋ + 1

/-- fl rounds a positive rational to the nearest binary32 value (24-bit
significand, round to nearest, ties to even): the result of the exact
operation is rounded this way by every IEEE `f32` cast, addition, division
and multiplication of the source. Inputs are scaled by the power of two
that brings them into [2^23, 2^24) and the significand is rounded there.
Nonpositive input gives 0, and the exponent is unbounded: this is exact for
the normal, non-overflowing range, which covers every value the cell-center
computation produces for `u32` image dimensions. -/
def fl (q : ℚ) : ℚ :=
  if 0 < q then
    (rne (q * 2 ^ (23 - Int.log 2 q)) : ℚ) * 2 ^ (Int.log 2 q - 23)
  else 0

/-- cellCenterX embeds `let cx = ((col as f32 + 0.5) * cell_w).round() as u32`
with `cell_w = w as f32 / PALETTE_COLS as f32` (source lines 156, 163):
each `f32` step is rounded by `fl` (the casts of `col ≤ 6` and of the
divisor 7, and the sum `+ 0.5`, are exact, but `fl` is applied uniformly);
`f32::round` is round half away from zero, which on these nonnegative
values is Mathlib's `round`, and the final `as u32` is `Int.toNat` (the
value always fits in `u32` for `u32` dimensions). -/
def cellCenterX (img : Image) (col : ℕ) : ℕ :=
  (round (fl (fl (fl (col : ℚ) + 1 / 2) *
    fl (fl (img.width : ℚ) / fl (PALETTE_COLS : ℚ))))).toNat

/-- cellCenterY embeds `let cy = ((row as f32 + 0.5) * cell_h).round() as u32`
with `cell_h = h as f32 / PALETTE_ROWS as f32` (source lines 157, 164),
with the same binary32 rounding model as `cellCenterX`. -/
def cellCenterY (img : Image) (row : ℕ) : ℕ :=
  (round (fl (fl (fl (row : ℚ) + 1 / 2) *
    fl (fl (img.height : ℚ) / fl (PALETTE_ROWS : ℚ))))).toNat

/-- exactCenterX is the idealized center formula the specification states,
`round((col + 0.5) · width / Cols)` over exact rationals: what the program
would compute with unbounded precision. It differs from `cellCenterX`
first at width 31, col 3 (exact 15.5 rounds to 16, the `f32` product
15.4999990… rounds to 15). -/
def exactCenterX (img : Image) (col : ℕ) : ℕ :=
  (round (((col : ℚ) + 1 / 2) * ((img.width : ℚ) / (PALETTE_COLS : ℚ)))).toNat

/-- exactCenterY is the idealized `round((row + 0.5) · height / Rows)` over
exact rationals, the vertical analogue of `exactCenterX`. -/
def exactCenterY (img : Image) (row : ℕ) : ℕ :=
  (round (((row : ℚ) + 1 / 2) * ((img.height : ℚ) / (PALETTE_ROWS : ℚ)))).toNat

/-- sample_palette embeds `fn sample_palette(img) -> Vec<[u8; 3]>` (source
lines 154-171): row-major loop over the 6×7 grid, averaged patch at the
clamped cell center. -/
def sample_palette (img : Image) : List Color :=
  (List.range PALETTE_ROWS).flatMap fun row =>
    (List.range PALETTE_COLS).map fun col =>
      average_patch img (min (cellCenterX img col) (img.width - 1))
        (min (cellCenterY img row) (img.height - 1))

/-- testImg is a concrete 1×1 black image used to instantiate theorems. -/
def testImg : Image := ⟨1, 1, fun _ _ => ⟨0, 0, 0⟩⟩

/-- testPal is a concrete two-entry palette (black, white). -/
def testPal : List Color := [⟨0, 0, 0⟩, ⟨255, 255, 255⟩]

/-- patchAverage is the claim's description of one averaged patch: the
per-channel truncating average (division by 9, no `u8` cast) of the 3×3
clamped neighborhood of (cx, cy). -/
def patchAverage (img : Image) (cx cy : ℕ) : Color :=
  { r := ((patchPixels img cx cy).map Color.r).sum / 9
    g := ((patchPixels img cx cy).map Color.g).sum / 9
    b := ((patchPixels img cx cy).map Color.b).sum / 9 }

/-- specCellColor restates claim C6's closed-form description of one palette
cell, with the cell center amended to the `f32` computation the program
performs: the truncating average of the patch at the clamped `f32` center. -/
def specCellColor (img : Image) (row col : ℕ) : Color :=
  patchAverage img (min (cellCenterX img col) (img.width - 1))
    (min (cellCenterY img row) (img.height - 1))

/-- specCellColorIdeal is claim C6's cell description exactly as first
stated: the truncating average of the patch at the clamped idealized center
`round((col + 0.5)·width/Cols)`, `round((row + 0.5)·height/Rows)`. -/
def specCellColorIdeal (img : Image) (row col : ℕ) : Color :=
  patchAverage img (min (exactCenterX img col) (img.width - 1))
    (min (exactCenterY img row) (img.height - 1))

/-- imgW31 is a 31×1 image that separates the `f32` cell center from the
idealized one: columns 17 and beyond are bright, the rest black, so the
patch at x-center 15 (the `f32` value) sees only black while the patch at
x-center 16 (the idealized value) sees a bright column. -/
def imgW31 : Image := ⟨31, 1, fun x _ => if 17 ≤ x then ⟨9, 9, 9⟩ else ⟨0, 0, 0⟩⟩

/-- Identity: the Lab distance of a color to itself is zero. -/
theorem lab_distance_self (a : Color) : lab_distance a a = 0 := by
  simp [lab_distance]

/-- Nonnegativity of the Lab distance (it is a real square root). -/
theorem lab_distance_nonneg (a b : Color) : 0 ≤ lab_distance a b :=
  Real.sqrt_nonneg _

/-- Symmetry of the Lab distance. -/
theorem lab_distance_comm (a b : Color) : lab_distance a b = lab_distance b a := by
  unfold lab_distance
  ring_nf

theorem enumerateFrom_length {α : Type} :
    ∀ (l : List α) (n : ℕ), (enumerateFrom n l).length = l.length
  | [], _ => rfl
  | _ :: l, n => by
    simpa [enumerateFrom] using enumerateFrom_length l (n + 1)

theorem mem_enumerateFrom {α : Type} (d : α) :
    ∀ (l : List α) (n : ℕ) (x : ℕ × α), x ∈ enumerateFrom n l →
      ∃ j, j < l.length ∧ x.1 = n + j ∧ x.2 = l.getD j d
  | [], _, _, h => by cases h
  | a :: l, n, x, h => by
    rw [enumerateFrom, List.mem_cons] at h
    rcases h with h | h
    · exact ⟨0, by simp, by simp [h], by simp [h]⟩
    · obtain ⟨j, hj, h1, h2⟩ := mem_enumerateFrom d l (n + 1) x h
      exact ⟨j + 1, by simpa using hj, by omega, by simpa [List.getD_cons_succ] using h2⟩

theorem enumerateFrom_mem {α : Type} (d : α) :
    ∀ (l : List α) (n j : ℕ), j < l.length → (n + j, l.getD j d) ∈ enumerateFrom n l
  | [], _, _, h => by simp at h
  | a :: l, n, 0, _ => by simp [enumerateFrom]
  | a :: l, n, j + 1, h => by
    have hj : j < l.length := by simpa using h
    have hmem := enumerateFrom_mem d l (n + 1) j hj
    have heq : n + (j + 1) = n + 1 + j := by omega
    rw [enumerateFrom]
    refine List.mem_cons.mpr (Or.inr ?_)
    rw [List.getD_cons_succ, heq]
    exact hmem

theorem enumerateFrom_pairwise {α : Type} :
    ∀ (l : List α) (n : ℕ),
      (enumerateFrom n l).Pairwise (fun p q => p.1 < q.1)
  | [], _ => List.Pairwise.nil
  | a :: l, n => by
    rw [enumerateFrom]
    refine List.pairwise_cons.mpr ⟨?_, enumerateFrom_pairwise l (n + 1)⟩
    intro x hx
    obtain ⟨j, _, h1, _⟩ := mem_enumerateFrom a l (n + 1) x hx
    omega

theorem foldl_minStep_spec {β : Type} [LinearOrder β] :
    ∀ (l : List (ℕ × β)) (a : ℕ × β),
      (a :: l).Pairwise (fun p q => p.1 < q.1) →
      l.foldl minStep a ∈ a :: l ∧
      (∀ x ∈ a :: l, (l.foldl minStep a).2 ≤ x.2) ∧
      (∀ x ∈ a :: l, x.1 < (l.foldl minStep a).1 → (l.foldl minStep a).2 < x.2) ∧
      (l.foldl minStep a = a ∨ (l.foldl minStep a).2 < a.2)
  | [], a, _ => by
    refine ⟨by simp, ?_, ?_, Or.inl rfl⟩
    · intro x hx
      have hxa : x = a := by simpa using hx
      subst hxa
      simp
    · intro x hx hlt
      have hxa : x = a := by simpa using hx
      subst hxa
      simp only [List.foldl_nil] at hlt
      omega
  | x :: xs, a, hp => by
    have hax : a.1 < x.1 := (List.pairwise_cons.mp hp).1 x (by simp)
    have hp' : (minStep a x :: xs).Pairwise (fun p q => p.1 < q.1) := by
      have h1 := (List.pairwise_cons.mp hp).1
      have h2 := List.pairwise_cons.mp (List.pairwise_cons.mp hp).2
      refine List.pairwise_cons.mpr ⟨?_, h2.2⟩
      intro y hy
      by_cases hc : x.2 < a.2
      · simpa [minStep, hc] using h2.1 y hy
      · simpa [minStep, hc] using h1 y (by simp [hy])
    obtain ⟨hmem, hle, hlt, hor⟩ := foldl_minStep_spec xs (minStep a x) hp'
    have hfold : (x :: xs).foldl minStep a = xs.foldl minStep (minStep a x) := rfl
    rw [hfold]
    set r := xs.foldl minStep (minStep a x) with hr
    by_cases hc : x.2 < a.2
    · have hstep : minStep a x = x := by simp [minStep, hc]
      rw [hstep] at hmem hle hlt hor
      simp only [List.mem_cons] at hmem
      refine ⟨?_, ?_, ?_, ?_⟩
      · rcases hmem with h | h
        · simp [h]
        · simp [List.mem_cons, h]
      · intro y hy
        simp only [List.mem_cons] at hy
        rcases hy with h | h | h
        · have hrx : r.2 ≤ x.2 := hle x (by simp)
          subst h
          exact le_of_lt (lt_of_le_of_lt hrx hc)
        · exact hle y (by simp [h])
        · exact hle y (by simp [h])
      · intro y hy hy1
        simp only [List.mem_cons] at hy
        rcases hy with h | h | h
        · have hrx : r.2 ≤ x.2 := hle x (by simp)
          subst h
          exact lt_of_le_of_lt hrx hc
        · exact hlt y (by simp [h]) hy1
        · exact hlt y (by simp [h]) hy1
      · rcases hor with h | h
        · refine Or.inr ?_
          rw [h]
          exact hc
        · exact Or.inr (lt_trans h hc)
    · have hstep : minStep a x = a := by simp [minStep, hc]
      rw [hstep] at hmem hle hlt hor
      simp only [List.mem_cons] at hmem
      have hax2 : a.2 ≤ x.2 := le_of_not_lt hc
      refine ⟨?_, ?_, ?_, hor⟩
      · rcases hmem with h | h
        · simp [h]
        · simp [List.mem_cons, h]
      · intro y hy
        simp only [List.mem_cons] at hy
        rcases hy with h | h | h
        · exact hle y (by simp [h])
        · have hra : r.2 ≤ a.2 := hle a (by simp)
          subst h
          exact le_trans hra hax2
        · exact hle y (by simp [h])
      · intro y hy hy1
        simp only [List.mem_cons] at hy
        rcases hy with h | h | h
        · exact hlt y (by simp [h]) hy1
        · subst h
          rcases hor with h' | h'
          · rw [h'] at hy1
            omega
          · exact lt_of_lt_of_le h' hax2
        · exact hlt y (by simp [h]) hy1

theorem rustMinBy_spec {β : Type} [LinearOrder β] (l : List (ℕ × β))
    (hne : l ≠ []) (hp : l.Pairwise (fun p q => p.1 < q.1)) :
    ∃ r, rustMinBy l = some r ∧ r ∈ l ∧
      (∀ x ∈ l, r.2 ≤ x.2) ∧ (∀ x ∈ l, x.1 < r.1 → r.2 < x.2) := by
  match l with
  | [] => exact absurd rfl hne
  | a :: l =>
    obtain ⟨h1, h2, h3, _⟩ := foldl_minStep_spec l a hp
    exact ⟨l.foldl minStep a, rfl, h1, h2, h3⟩

theorem nearestIdx_spec (px : Color) (pal : List Color) (hne : pal ≠ []) :
    ∃ i, nearestIdx px pal = some i ∧ i < pal.length ∧
      (∀ j, j < pal.length →
        lab_distance px (pal.getD i default) ≤ lab_distance px (pal.getD j default)) ∧
      (∀ j, j < i →
        lab_distance px (pal.getD i default) < lab_distance px (pal.getD j default)) := by
  set L := (enumerate pal).map fun ic => (ic.1, lab_distance px ic.2) with hL
  have hLne : L ≠ [] := by
    cases pal with
    | nil => exact absurd rfl hne
    | cons p t => simp [hL, enumerate, enumerateFrom]
  have hLp : L.Pairwise (fun p q => p.1 < q.1) := by
    refine List.Pairwise.map _ ?_ (enumerateFrom_pairwise pal 0)
    intro a b h
    exact h
  obtain ⟨r, hmin, hmem, hle, hlt⟩ := rustMinBy_spec L hLne hLp
  obtain ⟨ic, hic, hric⟩ := List.mem_map.mp hmem
  obtain ⟨j, hj, hj1, hj2⟩ := mem_enumerateFrom default pal 0 ic hic
  have hr1 : r.1 = j := by
    rw [← hric]
    simpa using hj1
  have hr2 : r.2 = lab_distance px (pal.getD j default) := by
    rw [← hric]
    simp [hj2]
  refine ⟨j, ?_, by omega, ?_, ?_⟩
  · simp [nearestIdx, ← hL, hmin, hr1]
  · intro k hk
    have hmemk : (0 + k, pal.getD k default) ∈ enumerate pal :=
      enumerateFrom_mem default pal 0 k hk
    have hmemk' : ((0 + k : ℕ), lab_distance px (pal.getD k default)) ∈ L := by
      rw [hL]
      exact List.mem_map.mpr ⟨(0 + k, pal.getD k default), hmemk, rfl⟩
    have hres := hle _ hmemk'
    rw [hr2] at hres
    simpa using hres
  · intro k hk
    have hklen : k < pal.length := by omega
    have hmemk : (0 + k, pal.getD k default) ∈ enumerate pal :=
      enumerateFrom_mem default pal 0 k hklen
    have hmemk' : ((0 + k : ℕ), lab_distance px (pal.getD k default)) ∈ L := by
      rw [hL]
      exact List.mem_map.mpr ⟨(0 + k, pal.getD k default), hmemk, rfl⟩
    have hres := hlt _ hmemk' (by simpa [hr1] using hk)
    rw [hr2] at hres
    simpa using hres

theorem flatMap_blocks_length {α : Type} :
    ∀ (l : List ℕ) (f : ℕ → List α) (m : ℕ), (∀ i ∈ l, (f i).length = m) →
      (l.flatMap f).length = l.length * m
  | [], _, _, _ => by simp
  | a :: t, f, m, hf => by
    have ih := flatMap_blocks_length t f m (fun i hi => hf i (by simp [hi]))
    have hfa := hf a (by simp)
    rw [List.flatMap_cons, List.length_append, ih, List.length_cons, Nat.succ_mul]
    omega

theorem flatMap_blocks_getElem {α : Type} :
    ∀ (l : List ℕ) (f : ℕ → List α) (m : ℕ), (∀ i ∈ l, (f i).length = m) →
      ∀ (x j i : ℕ), l[x]? = some i → j < m →
        (l.flatMap f)[x * m + j]? = (f i)[j]?
  | [], _, _, _, x, _, _, h, _ => by simp at h
  | a :: t, f, m, hf, 0, j, i, hx, hj => by
    have hi : a = i := by simpa using hx
    subst hi
    have hfa := hf a (by simp)
    rw [List.flatMap_cons, List.getElem?_append]
    simp [hfa, hj]
  | a :: t, f, m, hf, x + 1, j, i, hx, hj => by
    have hx' : t[x]? = some i := by simpa using hx
    have ih := flatMap_blocks_getElem t f m (fun i hi => hf i (by simp [hi])) x j i hx' hj
    have hfa := hf a (by simp)
    rw [List.flatMap_cons, List.getElem?_append]
    have hbig : ¬ ((x + 1) * m + j < (f a).length) := by
      rw [hfa, Nat.succ_mul]
      omega
    rw [if_neg hbig]
    have hsub : (x + 1) * m + j - (f a).length = x * m + j := by
      rw [hfa, Nat.succ_mul]
      omega
    rw [hsub, ih]

theorem optList_eq_none_of_mem {α : Type} :
    ∀ (l : List (Option α)), none ∈ l → optList l = none
  | [], h => by simp at h
  | none :: t, _ => rfl
  | some a :: t, h => by
    rcases List.mem_cons.mp h with h | h
    · exact Option.noConfusion h
    · simp [optList, optList_eq_none_of_mem t h]

theorem optList_all_some {α : Type} :
    ∀ (l : List (Option α)), (∀ x ∈ l, x ≠ none) →
      ∃ ts, optList l = some ts ∧ ts.length = l.length ∧ ∀ t ∈ ts, some t ∈ l
  | [], _ => ⟨[], rfl, rfl, by simp⟩
  | none :: t, h => absurd rfl (h none (by simp))
  | some a :: t, h => by
    obtain ⟨ts, h1, h2, h3⟩ := optList_all_some t (fun x hx => h x (by simp [hx]))
    refine ⟨a :: ts, ?_, by simp [h2], ?_⟩
    · simp [optList, h1]
    · intro u hu
      rcases List.mem_cons.mp hu with h' | h'
      · simp [h']
      · exact List.mem_cons.mpr (Or.inr (h3 u h'))

theorem encodeTokens_length (img : Image) (pal : List Color) :
    (encodeTokens img pal).length = IMAGE_WIDTH * IMAGE_HEIGHT := by
  unfold encodeTokens
  rw [flatMap_blocks_length _ _ IMAGE_HEIGHT]
  · simp
  · intro i _
    simp

theorem encodeTokens_getElem (img : Image) (pal : List Color) (x y : ℕ)
    (hx : x < IMAGE_WIDTH) (hy : y < IMAGE_HEIGHT) :
    (encodeTokens img pal)[x * IMAGE_HEIGHT + (IMAGE_HEIGHT - 1 - y)]? =
      some (pixelToken img pal x y) := by
  unfold encodeTokens
  rw [flatMap_blocks_getElem _ _ IMAGE_HEIGHT (fun i _ => by simp) x _ x
    (by simp [List.getElem?_range, hx]) (by omega)]
  rw [List.getElem?_map]
  have hrev : (List.range IMAGE_HEIGHT).reverse[IMAGE_HEIGHT - 1 - y]? = some y := by
    have hlt : IMAGE_HEIGHT - 1 - y < (List.range IMAGE_HEIGHT).reverse.length := by
      simp only [List.length_reverse, List.length_range]
      simp only [IMAGE_HEIGHT] at hy ⊢
      omega
    rw [List.getElem?_eq_getElem hlt, List.getElem_reverse, List.getElem_range]
    simp only [List.length_range, Option.some.injEq]
    simp only [IMAGE_HEIGHT] at hy ⊢
    omega
  rw [hrev]
  rfl

theorem natDigs_digits : ∀ (n : ℕ), ∀ c ∈ natDigs n, ∃ d, d < 10 ∧ c = digitChar d := by
  intro n
  induction n using Nat.strong_induction_on with
  | _ n ih =>
    intro c hc
    rw [natDigs] at hc
    split at hc
    · next h =>
      rcases List.mem_cons.mp hc with h' | h'
      · exact ⟨n, h, h'⟩
      · simp at h'
    · next h =>
      rcases List.mem_append.mp hc with h' | h'
      · exact ih (n / 10) (Nat.div_lt_self (by omega) (by omega)) c h'
      · have hc' : c = digitChar (n % 10) := by simpa using h'
        exact ⟨n % 10, by omega, hc'⟩

theorem digitChar_ok (d : ℕ) (hd : d < 10) :
    digitChar d ≠ ',' ∧ (digitChar d).isWhitespace = false := by
  interval_cases d <;> exact ⟨by decide, by decide⟩

theorem fmt2_chars (q : ℚ) :
    ∀ c ∈ (fmt2 q).data, c ≠ ',' ∧ c.isWhitespace = false := by
  intro c hc
  have hdata : (fmt2 q).data =
      natDigs ((round (q * 100)).toNat / 100) ++
        '.' :: [digitChar ((round (q * 100)).toNat % 100 / 10),
                digitChar ((round (q * 100)).toNat % 100 % 10)] := rfl
  rw [hdata] at hc
  rcases List.mem_append.mp hc with h | h
  · obtain ⟨d, hd, hcd⟩ := natDigs_digits _ c h
    rw [hcd]
    exact digitChar_ok d hd
  · rcases List.mem_cons.mp h with h' | h'
    · subst h'
      exact ⟨by decide, by decide⟩
    · rcases List.mem_cons.mp h' with h'' | h''
      · rw [h'']
        exact digitChar_ok _ (by omega)
      · have hc' : c = digitChar ((round (q * 100)).toNat % 100 % 10) := by simpa using h''
        rw [hc']
        exact digitChar_ok _ (by omega)

theorem tokenOfIdx_data (idx : ℕ) :
    (tokenOfIdx idx).data =
      (fmt2 (uOfIdx idx)).data ++ ':' :: (fmt2 (vOfIdx idx)).data := by
  unfold tokenOfIdx
  rw [String.data_append, String.data_append]
  simp

theorem tokenOfIdx_chars (idx : ℕ) :
    tokenOfIdx idx ≠ "" ∧ ∀ c ∈ (tokenOfIdx idx).data, c ≠ ',' ∧ c.isWhitespace = false := by
  have hmem : ':' ∈ (tokenOfIdx idx).data := by
    rw [tokenOfIdx_data]
    simp
  constructor
  · intro h
    rw [h] at hmem
    simp at hmem
  · intro c hc
    rw [tokenOfIdx_data] at hc
    rcases List.mem_append.mp hc with h | h
    · exact fmt2_chars _ c h
    · rcases List.mem_cons.mp h with h' | h'
      · subst h'
        exact ⟨by decide, by decide⟩
      · exact fmt2_chars _ c h'

theorem mem_encodeTokens (img : Image) (pal : List Color) (ot : Option String)
    (h : ot ∈ encodeTokens img pal) : ∃ x y, ot = pixelToken img pal x y := by
  unfold encodeTokens at h
  obtain ⟨x, _, h2⟩ := List.mem_flatMap.mp h
  obtain ⟨y, _, h4⟩ := List.mem_map.mp h2
  exact ⟨x, y, h4.symm⟩

theorem pixelToken_some (img : Image) (pal : List Color) (x y : ℕ) (hne : pal ≠ []) :
    ∃ i, i < pal.length ∧ pixelToken img pal x y = some (tokenOfIdx i) := by
  obtain ⟨i, h1, h2, _⟩ := nearestIdx_spec (img.pix x y) pal hne
  exact ⟨i, h2, by simp [pixelToken, h1]⟩

theorem colOfIdx_lt (i : ℕ) : colOfIdx i < 7 := by
  unfold colOfIdx PALETTE_COLS U32
  omega

theorem colOfIdx_eq (i : ℕ) (hi : i < 42) : colOfIdx i = i % 7 := by
  unfold colOfIdx PALETTE_COLS U32
  omega

theorem rowOfIdx_eq (i : ℕ) (hi : i < 42) : rowOfIdx i = 5 - i / 7 := by
  unfold rowOfIdx rawRowOfIdx PALETTE_ROWS PALETTE_COLS U32
  omega

theorem uOfIdx_def (i : ℕ) : uOfIdx i = ((colOfIdx i : ℚ) + 1 / 2) / 7 := by
  norm_num [uOfIdx, PALETTE_COLS]

theorem vOfIdx_def (i : ℕ) : vOfIdx i = ((rowOfIdx i : ℚ) + 1 / 2) / 6 := by
  norm_num [vOfIdx, PALETTE_ROWS]

theorem u_bounds_col (c : ℕ) (hc : c < 7) :
    0 < ((c : ℚ) + 1 / 2) / 7 ∧ ((c : ℚ) + 1 / 2) / 7 < 1 ∧
      0 < fmtQ (((c : ℚ) + 1 / 2) / 7) ∧ fmtQ (((c : ℚ) + 1 / 2) / 7) < 1 := by
  interval_cases c <;> norm_num [fmtQ, round_eq]

theorem v_bounds_row (r : ℕ) (hr : r < 6) :
    0 < ((r : ℚ) + 1 / 2) / 6 ∧ ((r : ℚ) + 1 / 2) / 6 < 1 ∧
      0 < fmtQ (((r : ℚ) + 1 / 2) / 6) ∧ fmtQ (((r : ℚ) + 1 / 2) / 6) < 1 := by
  interval_cases r <;> norm_num [fmtQ, round_eq]

theorem u_roundtrip_col (c : ℕ) (hc : c < 7) :
    ⌊fmtQ (((c : ℚ) + 1 / 2) / 7) * 7⌋ = (c : ℤ) := by
  interval_cases c <;> norm_num [fmtQ, round_eq]

theorem v_roundtrip_row (r : ℕ) (hr : r < 6) :
    ⌊fmtQ (((r : ℚ) + 1 / 2) / 6) * 6⌋ = (r : ℤ) := by
  interval_cases r <;> norm_num [fmtQ, round_eq]

theorem uOfIdx_bounds (i : ℕ) :
    0 < uOfIdx i ∧ uOfIdx i < 1 ∧ 0 < fmtQ (uOfIdx i) ∧ fmtQ (uOfIdx i) < 1 := by
  rw [uOfIdx_def]
  exact u_bounds_col _ (colOfIdx_lt i)

theorem vOfIdx_bounds (i : ℕ) (hi : i < 42) :
    0 < vOfIdx i ∧ vOfIdx i < 1 ∧ 0 < fmtQ (vOfIdx i) ∧ fmtQ (vOfIdx i) < 1 := by
  rw [vOfIdx_def]
  refine v_bounds_row _ ?_
  rw [rowOfIdx_eq i hi]
  omega

/-- C1: in the nearest-palette lookup of `encode_uv_csv`, for every pixel
color and non-empty palette the selected index minimizes the Lab distance,
every strictly earlier index has strictly larger distance (so equal minima
resolve to the lowest index), and when the pixel color equals some palette
entry the selected entry is at distance 0 and no exact duplicate precedes
the selected index. -/
theorem nearest_lookup_spec (px : Color) (pal : List Color) (hne : pal ≠ []) :
    ∃ i, nearestIdx px pal = some i ∧ i < pal.length ∧
      (∀ j, j < pal.length →
        lab_distance px (pal.getD i default) ≤ lab_distance px (pal.getD j default)) ∧
      (∀ j, j < i →
        lab_distance px (pal.getD i default) < lab_distance px (pal.getD j default)) ∧
      (∀ k, k < pal.length → pal.getD k default = px →
        lab_distance px (pal.getD i default) = 0 ∧ i ≤ k) := by
  obtain ⟨i, h1, h2, h3, h4⟩ := nearestIdx_spec px pal hne
  refine ⟨i, h1, h2, h3, h4, ?_⟩
  intro k hk hpk
  have hzero : lab_distance px (pal.getD k default) = 0 := by
    rw [hpk]
    exact lab_distance_self px
  have hge0 := lab_distance_nonneg px (pal.getD i default)
  have hle0 : lab_distance px (pal.getD i default) ≤ 0 := by
    have := h3 k hk
    rw [hzero] at this
    exact this
  constructor
  · linarith
  · by_contra hik
    push_neg at hik
    have := h4 k hik
    rw [hzero] at this
    linarith

/-- Witness for C1 at the black pixel and the black/white palette. -/
theorem nearest_lookup_spec_witness :
    testPal ≠ [] ∧
    ∃ i, nearestIdx ⟨0, 0, 0⟩ testPal = some i ∧ i < testPal.length ∧
      (∀ j, j < testPal.length →
        lab_distance ⟨0, 0, 0⟩ (testPal.getD i default) ≤
          lab_distance ⟨0, 0, 0⟩ (testPal.getD j default)) ∧
      (∀ j, j < i →
        lab_distance ⟨0, 0, 0⟩ (testPal.getD i default) <
          lab_distance ⟨0, 0, 0⟩ (testPal.getD j default)) ∧
      (∀ k, k < testPal.length → testPal.getD k default = ⟨0, 0, 0⟩ →
        lab_distance ⟨0, 0, 0⟩ (testPal.getD i default) = 0 ∧ i ≤ k) :=
  ⟨by decide, nearest_lookup_spec ⟨0, 0, 0⟩ testPal (by decide)⟩

/-- C2: on an empty palette the encoder fails fast: `encode_uv_csv` yields
no string at all (the Rust `unwrap` on `min_by` of an empty iterator
panics on the very first output pixel), rather than dividing by zero or
producing an out-of-range index. -/
theorem encode_empty_palette_fails (img : Image) : encode_uv_csv img [] = none := by
  have hnone : (none : Option String) ∈ encodeTokens img [] := by
    unfold encodeTokens
    refine List.mem_flatMap.mpr ⟨0, by simp [IMAGE_WIDTH], ?_⟩
    refine List.mem_map.mpr ⟨0, by simp [IMAGE_HEIGHT], rfl⟩
  simp [encode_uv_csv, optList_eq_none_of_mem _ hnone]

/-- C3: for every palette index `i < Cols·Rows` the emitted `u`/`v` values
(2-decimal formatted) decode back to the cell that produced `i`:
`floor(u·Cols)` is `i % Cols`, `floor(v·Rows)` is the flipped row
`Rows−1−i/Cols`, and un-flipping recovers `row = i / Cols`. -/
theorem uv_roundtrip (i : ℕ) (hi : i < PALETTE_COLS * PALETTE_ROWS) :
    ⌊fmtQ (uOfIdx i) * (PALETTE_COLS : ℚ)⌋ = ((i % PALETTE_COLS : ℕ) : ℤ) ∧
    ⌊fmtQ (vOfIdx i) * (PALETTE_ROWS : ℚ)⌋ =
      ((PALETTE_ROWS - 1 - i / PALETTE_COLS : ℕ) : ℤ) ∧
    PALETTE_ROWS - 1 - (⌊fmtQ (vOfIdx i) * (PALETTE_ROWS : ℚ)⌋).toNat =
      i / PALETTE_COLS := by
  have hi' : i < 42 := by
    simpa [PALETTE_COLS, PALETTE_ROWS] using hi
  have hcols : (PALETTE_COLS : ℚ) = 7 := by norm_num [PALETTE_COLS]
  have hrows : (PALETTE_ROWS : ℚ) = 6 := by norm_num [PALETTE_ROWS]
  have hu : ⌊fmtQ (uOfIdx i) * (PALETTE_COLS : ℚ)⌋ = ((i % 7 : ℕ) : ℤ) := by
    rw [hcols, uOfIdx_def, colOfIdx_eq i hi']
    exact u_roundtrip_col _ (by omega)
  have hv : ⌊fmtQ (vOfIdx i) * (PALETTE_ROWS : ℚ)⌋ = ((5 - i / 7 : ℕ) : ℤ) := by
    rw [hrows, vOfIdx_def, rowOfIdx_eq i hi']
    exact v_roundtrip_row _ (by omega)
  refine ⟨?_, ?_, ?_⟩
  · rw [hu]
    norm_num [PALETTE_COLS]
  · rw [hv]
    norm_num [PALETTE_ROWS, PALETTE_COLS]
  · rw [hv]
    simp only [PALETTE_ROWS, PALETTE_COLS, Int.toNat_ofNat]
    omega

/-- Witness for C3 at index 9 (row 1, column 2). -/
theorem uv_roundtrip_witness :
    9 < PALETTE_COLS * PALETTE_ROWS ∧
    (⌊fmtQ (uOfIdx 9) * (PALETTE_COLS : ℚ)⌋ = ((9 % PALETTE_COLS : ℕ) : ℤ) ∧
     ⌊fmtQ (vOfIdx 9) * (PALETTE_ROWS : ℚ)⌋ =
       ((PALETTE_ROWS - 1 - 9 / PALETTE_COLS : ℕ) : ℤ) ∧
     PALETTE_ROWS - 1 - (⌊fmtQ (vOfIdx 9) * (PALETTE_ROWS : ℚ)⌋).toNat =
       9 / PALETTE_COLS) :=
  ⟨by decide, uv_roundtrip 9 (by decide)⟩

/-- C4: `encode_uv_csv` visits output pixels with `x` ascending in the outer
loop and `y` descending in the inner loop, so the token at serial position
`x·out_height + (out_height−1−y)` is exactly the token of pixel (x, y):
column 0 bottom-to-top, then column 1 bottom-to-top, and so on. -/
theorem traversal_order (img : Image) (pal : List Color) (x y : ℕ)
    (hx : x < IMAGE_WIDTH) (hy : y < IMAGE_HEIGHT) :
    (encodeTokens img pal)[x * IMAGE_HEIGHT + (IMAGE_HEIGHT - 1 - y)]? =
      some (pixelToken img pal x y) :=
  encodeTokens_getElem img pal x y hx hy

/-- Witness for C4 at pixel (1, 0) of the test image. -/
theorem traversal_order_witness :
    (encodeTokens testImg testPal)[1 * IMAGE_HEIGHT + (IMAGE_HEIGHT - 1 - 0)]? =
      some (pixelToken testImg testPal 1 0) :=
  traversal_order testImg testPal 1 0 (by decide) (by decide)

/-- C5: for every image and non-empty palette the encoder returns the
token list joined by single commas: exactly `out_width × out_height`
tokens, each one nonempty and free of commas and whitespace (hence no
trailing delimiter and no surrounding whitespace in the joined string). -/
theorem token_count_and_join (img : Image) (pal : List Color) (hne : pal ≠ []) :
    ∃ ts : List String, encode_uv_csv img pal = some (String.intercalate "," ts) ∧
      ts.length = IMAGE_WIDTH * IMAGE_HEIGHT ∧
      ∀ t ∈ ts, t ≠ "" ∧ ∀ c ∈ t.data, c ≠ ',' ∧ c.isWhitespace = false := by
  have hall : ∀ ot ∈ encodeTokens img pal, ot ≠ none := by
    intro ot hot
    obtain ⟨x, y, hxy⟩ := mem_encodeTokens img pal ot hot
    obtain ⟨i, _, hi2⟩ := pixelToken_some img pal x y hne
    rw [hxy, hi2]
    simp
  obtain ⟨ts, h1, h2, h3⟩ := optList_all_some _ hall
  refine ⟨ts, ?_, ?_, ?_⟩
  · simp [encode_uv_csv, h1]
  · rw [h2, encodeTokens_length]
  · intro t ht
    obtain ⟨x, y, hxy⟩ := mem_encodeTokens img pal _ (h3 t ht)
    obtain ⟨i, _, hi2⟩ := pixelToken_some img pal x y hne
    rw [hi2] at hxy
    rw [Option.some.inj hxy]
    exact tokenOfIdx_chars i

/-- Witness for C5 at the test image and palette. -/
theorem token_count_and_join_witness :
    testPal ≠ [] ∧
    ∃ ts : List String, encode_uv_csv testImg testPal = some (String.intercalate "," ts) ∧
      ts.length = IMAGE_WIDTH * IMAGE_HEIGHT ∧
      ∀ t ∈ ts, t ≠ "" ∧ ∀ c ∈ t.data, c ≠ ',' ∧ c.isWhitespace = false :=
  ⟨by decide, token_count_and_join testImg testPal (by decide)⟩

/-- C7: with the program's grid constants (any palette of at most
Cols·Rows = 42 entries, as `sample_palette` always produces), every token
the encoder computes carries coordinates strictly inside (0, 1), both as
exact cell centers and after rounding to two decimal digits. -/
theorem uv_strictly_inside (img : Image) (pal : List Color) (hne : pal ≠ [])
    (hlen : pal.length ≤ PALETTE_COLS * PALETTE_ROWS) (x y : ℕ) :
    ∃ i, i < PALETTE_COLS * PALETTE_ROWS ∧
      pixelToken img pal x y = some (tokenOfIdx i) ∧
      0 < uOfIdx i ∧ uOfIdx i < 1 ∧ 0 < vOfIdx i ∧ vOfIdx i < 1 ∧
      0 < fmtQ (uOfIdx i) ∧ fmtQ (uOfIdx i) < 1 ∧
      0 < fmtQ (vOfIdx i) ∧ fmtQ (vOfIdx i) < 1 := by
  obtain ⟨i, hi1, hi2⟩ := pixelToken_some img pal x y hne
  have hi42 : i < 42 := by
    have h42 : PALETTE_COLS * PALETTE_ROWS = 42 := by norm_num [PALETTE_COLS, PALETTE_ROWS]
    omega
  obtain ⟨hu1, hu2, hu3, hu4⟩ := uOfIdx_bounds i
  obtain ⟨hv1, hv2, hv3, hv4⟩ := vOfIdx_bounds i hi42
  exact ⟨i, by omega, hi2, hu1, hu2, hv1, hv2, hu3, hu4, hv3, hv4⟩

/-- Witness for C7 at pixel (0, 0) of the test image and palette. -/
theorem uv_strictly_inside_witness :
    testPal ≠ [] ∧
    ∃ i, i < PALETTE_COLS * PALETTE_ROWS ∧
      pixelToken testImg testPal 0 0 = some (tokenOfIdx i) ∧
      0 < uOfIdx i ∧ uOfIdx i < 1 ∧ 0 < vOfIdx i ∧ vOfIdx i < 1 ∧
      0 < fmtQ (uOfIdx i) ∧ fmtQ (uOfIdx i) < 1 ∧
      0 < fmtQ (vOfIdx i) ∧ fmtQ (vOfIdx i) < 1 :=
  ⟨by decide, uv_strictly_inside testImg testPal (by decide) (by decide) 0 0⟩

/-- C9: the Lab distance of the source is an identity-respecting, symmetric
and nonnegative distance on 8-bit RGB colors. -/
theorem lab_distance_metric (a b : Color) :
    lab_distance a a = 0 ∧ lab_distance a b = lab_distance b a ∧ 0 ≤ lab_distance a b :=
  ⟨lab_distance_self a, lab_distance_comm a b, lab_distance_nonneg a b⟩

theorem patchPixels_length (img : Image) (cx cy : ℕ) :
    (patchPixels img cx cy).length = 9 := by
  simp [patchPixels, patchOffsets]

theorem avg_channel_lt (img : Image) (cx cy : ℕ) (f : Color → ℕ)
    (hf : ∀ x y, f (img.pix x y) ≤ 255) :
    ((patchPixels img cx cy).map f).sum / 9 % 256 =
      ((patchPixels img cx cy).map f).sum / 9 := by
  have hb : ∀ v ∈ (patchPixels img cx cy).map f, v ≤ 255 := by
    intro v hv
    obtain ⟨p, hp, hfp⟩ := List.mem_map.mp hv
    obtain ⟨d, _, hd⟩ := List.mem_map.mp hp
    rw [← hfp, ← hd]
    exact hf _ _
  have hsle := List.sum_le_card_nsmul ((patchPixels img cx cy).map f) 255 hb
  rw [List.length_map, patchPixels_length] at hsle
  have hlt : ((patchPixels img cx cy).map f).sum / 9 < 256 := by
    have h9 : ((patchPixels img cx cy).map f).sum ≤ 2295 := by simpa using hsle
    omega
  exact Nat.mod_eq_of_lt hlt

theorem average_patch_eq_spec (img : Image) (row col : ℕ)
    (hpix : ∀ x y, (img.pix x y).r ≤ 255 ∧ (img.pix x y).g ≤ 255 ∧ (img.pix x y).b ≤ 255) :
    average_patch img (min (cellCenterX img col) (img.width - 1))
        (min (cellCenterY img row) (img.height - 1)) = specCellColor img row col := by
  unfold average_patch specCellColor patchAverage
  rw [avg_channel_lt img _ _ Color.r fun x y => (hpix x y).1,
    avg_channel_lt img _ _ Color.g fun x y => (hpix x y).2.1,
    avg_channel_lt img _ _ Color.b fun x y => (hpix x y).2.2]

/-- C6 as amended: for every image (dimensions ≥ 1, 8-bit pixels),
`sample_palette` yields exactly Cols·Rows colors in row-major order, the
cell (row, col) entry being the truncating per-channel average of the 3×3
clamped patch at the clamped cell center as the program computes it in
`f32` arithmetic, `round(fl(fl(col+0.5)·fl(fl(w)/7)))` and likewise for
rows — which agrees with the idealized `round((col+0.5)·w/Cols)` except
where the `f32` product falls on the other side of a rounding boundary
(first at width 31, col 3; see the counterexample). -/
theorem sample_palette_grid (img : Image) (hw : 1 ≤ img.width) (hh : 1 ≤ img.height)
    (hpix : ∀ x y, (img.pix x y).r ≤ 255 ∧ (img.pix x y).g ≤ 255 ∧ (img.pix x y).b ≤ 255) :
    (sample_palette img).length = PALETTE_COLS * PALETTE_ROWS ∧
    ∀ row col, row < PALETTE_ROWS → col < PALETTE_COLS →
      (sample_palette img)[row * PALETTE_COLS + col]? =
        some (specCellColor img row col) := by
  constructor
  · unfold sample_palette
    rw [flatMap_blocks_length _ _ PALETTE_COLS (fun i _ => by simp)]
    simp [Nat.mul_comm]
  · intro row col hrow hcol
    unfold sample_palette
    rw [flatMap_blocks_getElem _ _ PALETTE_COLS (fun i _ => by simp) row _ row
      (by simp [List.getElem?_range, hrow]) hcol]
    rw [List.getElem?_map, List.getElem?_eq_getElem (by simpa using hcol)]
    simp only [List.getElem_range, Option.map_some']
    rw [average_patch_eq_spec img row col hpix]

/-- Witness for C6 at the 1×1 black test image. -/
theorem sample_palette_grid_witness :
    1 ≤ testImg.width ∧ 1 ≤ testImg.height ∧
    (∀ x y, (testImg.pix x y).r ≤ 255 ∧ (testImg.pix x y).g ≤ 255 ∧
      (testImg.pix x y).b ≤ 255) ∧
    ((sample_palette testImg).length = PALETTE_COLS * PALETTE_ROWS ∧
     ∀ row col, row < PALETTE_ROWS → col < PALETTE_COLS →
       (sample_palette testImg)[row * PALETTE_COLS + col]? =
         some (specCellColor testImg row col)) :=
  ⟨by decide, by decide, fun _ _ => ⟨Nat.zero_le _, Nat.zero_le _, Nat.zero_le _⟩,
   sample_palette_grid testImg (by decide) (by decide)
     (fun _ _ => ⟨Nat.zero_le _, Nat.zero_le _, Nat.zero_le _⟩)⟩

theorem average_patch_const (img : Image) (c : Color) (himg : ∀ x y, img.pix x y = c)
    (hc : c.r ≤ 255 ∧ c.g ≤ 255 ∧ c.b ≤ 255) (cx cy : ℕ) :
    average_patch img cx cy = c := by
  obtain ⟨cr, cg, cb⟩ := c
  obtain ⟨h1, h2, h3⟩ := hc
  simp only [average_patch, patchPixels, patchOffsets, himg] at *
  simp only [List.map_cons, List.map_nil, List.sum_cons, List.sum_nil, Color.mk.injEq]
  refine ⟨?_, ?_, ?_⟩ <;> omega

/-- C8: a solid single-color reference image (any dimensions ≥ 1) yields a
palette whose every entry is exactly that color: the 3×3 average of nine
identical 8-bit values is the value itself and truncation loses nothing. -/
theorem solid_image_palette (img : Image) (c : Color) (hw : 1 ≤ img.width)
    (hh : 1 ≤ img.height) (hc : c.r ≤ 255 ∧ c.g ≤ 255 ∧ c.b ≤ 255)
    (himg : ∀ x y, img.pix x y = c) :
    ∀ p ∈ sample_palette img, p = c := by
  intro p hp
  unfold sample_palette at hp
  obtain ⟨row, _, h2⟩ := List.mem_flatMap.mp hp
  obtain ⟨col, _, h4⟩ := List.mem_map.mp h2
  rw [← h4]
  exact average_patch_const img c himg hc _ _

/-- Witness for C8 at the 1×1 black test image and the color black. -/
theorem solid_image_palette_witness :
    1 ≤ testImg.width ∧ 1 ≤ testImg.height ∧
    ((⟨0, 0, 0⟩ : Color).r ≤ 255 ∧ (⟨0, 0, 0⟩ : Color).g ≤ 255 ∧
      (⟨0, 0, 0⟩ : Color).b ≤ 255) ∧
    (∀ x y, testImg.pix x y = ⟨0, 0, 0⟩) ∧
    ∀ p ∈ sample_palette testImg, p = ⟨0, 0, 0⟩ :=
  ⟨by decide, by decide, by decide, fun _ _ => rfl,
   solid_image_palette testImg ⟨0, 0, 0⟩ (by decide) (by decide) (by decide)
     (fun _ _ => rfl)⟩

theorem int_log_eq {q : ℚ} {e : ℤ} (h1 : (2 : ℚ) ^ e ≤ q) (h2 : q < (2 : ℚ) ^ (e + 1)) :
    Int.log 2 q = e := by
  have hq : 0 < q := lt_of_lt_of_le (by positivity) h1
  have ha : e ≤ Int.log 2 q := (Int.zpow_le_iff_le_log (by norm_num) hq).mp (by exact_mod_cast h1)
  have hb : Int.log 2 q < e + 1 := (Int.lt_zpow_iff_log_lt (by norm_num) hq).mp (by exact_mod_cast h2)
  omega

theorem rne_eval_lt (q : ℚ) (f : ℤ) (hf : ⌊q⌋ = f) (hlt : q - (f : ℚ) < 1 / 2) : rne q = f := by
  rw [rne, hf, if_pos hlt]

theorem rne_eval_gt (q : ℚ) (f : ℤ) (hf : ⌊q⌋ = f) (hgt : 1 / 2 < q - (f : ℚ)) :
    rne q = f + 1 := by
  rw [rne, hf, if_neg (by linarith), if_pos hgt]

theorem fl_eval {q : ℚ} {e m : ℤ} (h1 : (2 : ℚ) ^ e ≤ q) (h2 : q < (2 : ℚ) ^ (e + 1))
    (h3 : rne (q * 2 ^ (23 - e)) = m) : fl q = (m : ℚ) * 2 ^ (e - 23) := by
  have hq : 0 < q := lt_of_lt_of_le (by positivity) h1
  rw [fl, if_pos hq, int_log_eq h1 h2, h3]

theorem fl_31 : fl ((31 : ℕ) : ℚ) = 31 := by
  have h3 : rne (((31 : ℕ) : ℚ) * 2 ^ ((23 : ℤ) - 4)) = 16252928 := by
    rw [show ((31 : ℕ) : ℚ) * 2 ^ ((23 : ℤ) - 4) = ((16252928 : ℤ) : ℚ) by norm_num]
    exact rne_eval_lt _ _ (by norm_num) (by norm_num)
  rw [fl_eval (by norm_num) (by norm_num) h3]
  norm_num

theorem fl_7 : fl ((PALETTE_COLS : ℕ) : ℚ) = 7 := by
  have h3 : rne (((PALETTE_COLS : ℕ) : ℚ) * 2 ^ ((23 : ℤ) - 2)) = 14680064 := by
    rw [show ((PALETTE_COLS : ℕ) : ℚ) * 2 ^ ((23 : ℤ) - 2) = ((14680064 : ℤ) : ℚ) by
      norm_num [PALETTE_COLS]]
    exact rne_eval_lt _ _ (by norm_num) (by norm_num)
  rw [fl_eval (by norm_num [PALETTE_COLS]) (by norm_num [PALETTE_COLS]) h3]
  norm_num

theorem fl_31d7 : fl ((31 : ℚ) / 7) = 9287387 / 2 ^ 21 := by
  have h3 : rne ((31 : ℚ) / 7 * 2 ^ ((23 : ℤ) - 2)) = 9287387 := by
    rw [show (31 : ℚ) / 7 * 2 ^ ((23 : ℤ) - 2) = 65011712 / 7 by norm_num]
    exact rne_eval_lt _ _ (by norm_num) (by norm_num)
  rw [fl_eval (by norm_num) (by norm_num) h3]
  norm_num

theorem fl_3 : fl ((3 : ℕ) : ℚ) = 3 := by
  have h3 : rne (((3 : ℕ) : ℚ) * 2 ^ ((23 : ℤ) - 1)) = 12582912 := by
    rw [show ((3 : ℕ) : ℚ) * 2 ^ ((23 : ℤ) - 1) = ((12582912 : ℤ) : ℚ) by norm_num]
    exact rne_eval_lt _ _ (by norm_num) (by norm_num)
  rw [fl_eval (by norm_num) (by norm_num) h3]
  norm_num

theorem fl_3h : fl ((3 : ℚ) + 1 / 2) = 7 / 2 := by
  have h3 : rne (((3 : ℚ) + 1 / 2) * 2 ^ ((23 : ℤ) - 1)) = 14680064 := by
    rw [show ((3 : ℚ) + 1 / 2) * 2 ^ ((23 : ℤ) - 1) = ((14680064 : ℤ) : ℚ) by norm_num]
    exact rne_eval_lt _ _ (by norm_num) (by norm_num)
  rw [fl_eval (by norm_num) (by norm_num) h3]
  norm_num

theorem fl_prodx : fl ((7 : ℚ) / 2 * (9287387 / 2 ^ 21)) = 16252927 / 2 ^ 20 := by
  have h3 : rne ((7 : ℚ) / 2 * (9287387 / 2 ^ 21) * 2 ^ ((23 : ℤ) - 3)) = 16252927 := by
    rw [show (7 : ℚ) / 2 * (9287387 / 2 ^ 21) * 2 ^ ((23 : ℤ) - 3) = 65011709 / 4 by norm_num]
    exact rne_eval_lt _ _ (by norm_num) (by norm_num)
  rw [fl_eval (by norm_num) (by norm_num) h3]
  norm_num

/-- Evaluation of the `f32` x-center at width 31, col 3: the exact product
is 15.5 but the `f32` computation yields 16252927/2^20 = 15.4999990…,
which rounds to 15. -/
theorem cellCenterX_imgW31 : cellCenterX imgW31 3 = 15 := by
  unfold cellCenterX
  rw [show (imgW31.width : ℚ) = ((31 : ℕ) : ℚ) by norm_num [imgW31]]
  rw [fl_31, fl_7, fl_3, fl_31d7, fl_3h, fl_prodx]
  rw [show round ((16252927 : ℚ) / 2 ^ 20) = 15 by norm_num [round_eq]]
  rfl

theorem fl_1 : fl ((1 : ℕ) : ℚ) = 1 := by
  have h3 : rne (((1 : ℕ) : ℚ) * 2 ^ ((23 : ℤ) - 0)) = 8388608 := by
    rw [show ((1 : ℕ) : ℚ) * 2 ^ ((23 : ℤ) - 0) = ((8388608 : ℤ) : ℚ) by norm_num]
    exact rne_eval_lt _ _ (by norm_num) (by norm_num)
  rw [fl_eval (by norm_num) (by norm_num) h3]
  norm_num

theorem fl_6 : fl ((PALETTE_ROWS : ℕ) : ℚ) = 6 := by
  have h3 : rne (((PALETTE_ROWS : ℕ) : ℚ) * 2 ^ ((23 : ℤ) - 2)) = 12582912 := by
    rw [show ((PALETTE_ROWS : ℕ) : ℚ) * 2 ^ ((23 : ℤ) - 2) = ((12582912 : ℤ) : ℚ) by
      norm_num [PALETTE_ROWS]]
    exact rne_eval_lt _ _ (by norm_num) (by norm_num)
  rw [fl_eval (by norm_num [PALETTE_ROWS]) (by norm_num [PALETTE_ROWS]) h3]
  norm_num

theorem fl_1d6 : fl ((1 : ℚ) / 6) = 11184811 / 2 ^ 26 := by
  have h3 : rne ((1 : ℚ) / 6 * 2 ^ ((23 : ℤ) - (-3))) = 11184811 := by
    rw [show (1 : ℚ) / 6 * 2 ^ ((23 : ℤ) - (-3)) = 33554432 / 3 by norm_num]
    exact rne_eval_gt _ 11184810 (by norm_num) (by norm_num)
  rw [fl_eval (by norm_num) (by norm_num) h3]
  norm_num

theorem fl_0 : fl ((0 : ℕ) : ℚ) = 0 := by
  rw [fl, if_neg (by norm_num)]

theorem fl_half : fl ((0 : ℚ) + 1 / 2) = 1 / 2 := by
  have h3 : rne (((0 : ℚ) + 1 / 2) * 2 ^ ((23 : ℤ) - (-1))) = 8388608 := by
    rw [show ((0 : ℚ) + 1 / 2) * 2 ^ ((23 : ℤ) - (-1)) = ((8388608 : ℤ) : ℚ) by norm_num]
    exact rne_eval_lt _ _ (by norm_num) (by norm_num)
  rw [fl_eval (by norm_num) (by norm_num) h3]
  norm_num

theorem fl_prody : fl ((1 : ℚ) / 2 * (11184811 / 2 ^ 26)) = 11184811 / 2 ^ 27 := by
  have h3 : rne ((1 : ℚ) / 2 * (11184811 / 2 ^ 26) * 2 ^ ((23 : ℤ) - (-4))) = 11184811 := by
    rw [show (1 : ℚ) / 2 * (11184811 / 2 ^ 26) * 2 ^ ((23 : ℤ) - (-4)) =
      ((11184811 : ℤ) : ℚ) by norm_num]
    exact rne_eval_lt _ _ (by norm_num) (by norm_num)
  rw [fl_eval (by norm_num) (by norm_num) h3]
  norm_num

theorem cellCenterY_imgW31 : cellCenterY imgW31 0 = 0 := by
  unfold cellCenterY
  rw [show (imgW31.height : ℚ) = ((1 : ℕ) : ℚ) by norm_num [imgW31]]
  rw [fl_1, fl_6, fl_0, fl_1d6, fl_half, fl_prody]
  rw [show round ((11184811 : ℚ) / 2 ^ 27) = 0 by norm_num [round_eq]]
  rfl

theorem exactCenterX_imgW31 : exactCenterX imgW31 3 = 16 := by
  rw [exactCenterX, show (((3 : ℕ) : ℚ) + 1 / 2) * ((imgW31.width : ℚ) / (PALETTE_COLS : ℚ)) =
    31 / 2 by norm_num [imgW31, PALETTE_COLS]]
  rw [show round ((31 : ℚ) / 2) = 16 by norm_num [round_eq]]
  rfl

theorem exactCenterY_imgW31 : exactCenterY imgW31 0 = 0 := by
  rw [exactCenterY, show (((0 : ℕ) : ℚ) + 1 / 2) * ((imgW31.height : ℚ) / (PALETTE_ROWS : ℚ)) =
    1 / 12 by norm_num [imgW31, PALETTE_ROWS]]
  rw [show round ((1 : ℚ) / 12) = 0 by norm_num [round_eq]]
  rfl

theorem average_patch_imgW31 : average_patch imgW31 15 0 = ⟨0, 0, 0⟩ := by decide

theorem patchAverage_imgW31 : patchAverage imgW31 16 0 = ⟨3, 3, 3⟩ := by decide

/-- Counterexample to C6 as first stated: at the 31×1 image `imgW31`
(within the claim's scope: dimensions ≥ 1, 8-bit pixels) the palette entry
for cell (0, 3) is the patch average at the `f32` center 15, which differs
from the claim's idealized-center (16) patch average. -/
theorem sample_palette_grid_cex :
    1 ≤ imgW31.width ∧ 1 ≤ imgW31.height ∧
    (∀ x y, (imgW31.pix x y).r ≤ 255 ∧ (imgW31.pix x y).g ≤ 255 ∧
      (imgW31.pix x y).b ≤ 255) ∧
    (sample_palette imgW31)[0 * PALETTE_COLS + 3]? ≠
      some (specCellColorIdeal imgW31 0 3) := by
  refine ⟨by norm_num [imgW31], by norm_num [imgW31], ?_, ?_⟩
  · intro x y
    by_cases h : 17 ≤ x <;> simp [imgW31, h]
  · have hidx : (sample_palette imgW31)[0 * PALETTE_COLS + 3]? =
        some (average_patch imgW31 (min (cellCenterX imgW31 3) (imgW31.width - 1))
          (min (cellCenterY imgW31 0) (imgW31.height - 1))) := by
      unfold sample_palette
      rw [flatMap_blocks_getElem _ _ PALETTE_COLS (fun i _ => by simp) 0 _ 0
        (by simp [List.getElem?_range, PALETTE_ROWS]) (by norm_num [PALETTE_COLS])]
      rw [List.getElem?_map, List.getElem?_eq_getElem (by norm_num [PALETTE_COLS])]
      simp only [List.getElem_range, Option.map_some']
    rw [hidx, cellCenterX_imgW31, cellCenterY_imgW31]
    rw [show imgW31.width - 1 = 30 from rfl, show imgW31.height - 1 = 0 from rfl]
    rw [show min 15 30 = 15 from rfl, show min 0 0 = 0 from rfl, average_patch_imgW31]
    rw [show specCellColorIdeal imgW31 0 3 = patchAverage imgW31
      (min (exactCenterX imgW31 3) (imgW31.width - 1))
      (min (exactCenterY imgW31 0) (imgW31.height - 1)) from rfl]
    rw [exactCenterX_imgW31, exactCenterY_imgW31]
    rw [show imgW31.width - 1 = 30 from rfl, show imgW31.height - 1 = 0 from rfl]
    rw [show min 16 30 = 16 from rfl, show min 0 0 = 0 from rfl, patchAverage_imgW31]
    simp
